import Mathlib

/-!
Verification of the octomap_server map-visualization core
(`src/octomap_server/src/octomap_server.cpp`).

The C++ code loads an octree map and converts its occupied voxels into
per-depth-level cube-list markers. We embed the arithmetic of the code over
exact rationals (the code computes with IEEE doubles; the embedding models the
real-number algorithm). The level classification `int(log2(size / res) + 0.5)`
(line 128) is embedded by an exactly computable integer-valued function and
justified against its mathematical specification below.
-/

namespace OctomapServer

/-- RGBA color, the shape of `std_msgs::ColorRGBA` (components modelled by ℚ). -/
structure ColorRGBA where
  r : ℚ
  g : ℚ
  b : ℚ
  a : ℚ
deriving DecidableEq

/-- A 3D point, the shape of `geometry_msgs::Point` / `octomap::point3d`. -/
structure Point3 where
  x : ℚ
  y : ℚ
  z : ℚ
deriving DecidableEq

/-- An occupied voxel: `octomap::OcTreeVolume` is `pair<point3d, double>`;
`first` is the cube center, `second` the cube edge length. -/
structure Voxel where
  center : Point3
  size : ℚ
deriving DecidableEq

/-- Floor of `log2 q + 1/2`, computed exactly on rationals.  `Int.log 2 q` is
`⌊log2 q⌋`; the floor of `log2 q + 1/2` is `⌊log2 q⌋ + 1` exactly when
`2 ^ (2 * ⌊log2 q⌋ + 1) ≤ q ^ 2` (i.e. `2 ^ (⌊log2 q⌋ + 1/2) ≤ q`), else
`⌊log2 q⌋`.  Characterized by `log2HalfFloor_unique` below. -/
def log2HalfFloor (q : ℚ) : ℤ :=
  let k := Int.log 2 q
  if (2 : ℚ) ^ (2 * k + 1) ≤ q ^ 2 then k + 1 else k

/-- Line 128: `int idx = int(log2(it->second / lowestRes) + 0.5)`.  The C++
cast `int(·)` truncates toward zero: for a nonnegative value it is the floor,
and for a negative value it is the floor plus one (for a rational `r > 0` the
value `log2 r + 1/2` is never an integer, since `2 ^ (n - 1/2)` is
irrational).  Only meaningful for `size / res > 0`; for nonpositive ratios the
C++ `log2` has no defined finite value. -/
def voxelIdx (size res : ℚ) : ℤ :=
  let f := log2HalfFloor (size / res)
  if f < 0 then f + 1 else f

/-- Lines 206-229: the `switch (i)` of `heightMapColor`, selecting a
permutation of `(v, n, m)`; `color.a = 1.0` was set at line 188 and the
`default` branch overwrites only `r`, `g`, `b`. -/
def hmSwitch (i : ℤ) (v m n : ℚ) : ColorRGBA :=
  if i = 6 ∨ i = 0 then ⟨v, n, m, 1⟩
  else if i = 1 then ⟨n, v, m, 1⟩
  else if i = 2 then ⟨m, v, n, 1⟩
  else if i = 3 then ⟨m, n, v, 1⟩
  else if i = 4 then ⟨n, m, v, 1⟩
  else if i = 5 then ⟨v, m, n, 1⟩
  else ⟨1, 1/2, 1/2, 1⟩

/-- Lines 191-229 of `heightMapColor`, after the wrap `h -= floor(h)`:
`s = v = 1`, `h *= 6`, `i = floor(h)`, `f = h - i`, `f = 1 - f` when `i` is
even (`!(i & 1)`), `m = v*(1-s)`, `n = v*(1-s*f)`, then the switch. -/
def hmCore (h0 : ℚ) : ColorRGBA :=
  let s : ℚ := 1
  let v : ℚ := 1
  let h := h0 * 6
  let i : ℤ := ⌊h⌋
  let f0 := h - (i : ℚ)
  let f := if i % 2 = 0 then 1 - f0 else f0
  let m := v * (1 - s)
  let n := v * (1 - s * f)
  hmSwitch i v m n

/-- Lines 179-232: `OctomapServer::heightMapColor(double h)`; line 194 wraps
`h -= floor(h)` and the rest is `hmCore`. -/
def heightMapColor (h : ℚ) : ColorRGBA :=
  hmCore (h - (⌊h⌋ : ℚ))

/-- Line 139: the height fraction
`(1.0 - min(max((z - minZ) / (maxZ - minZ), 0.0), 1.0)) * colorFactor`. -/
def heightFraction (z minZ maxZ colorFactor : ℚ) : ℚ :=
  (1 - min (max ((z - minZ) / (maxZ - minZ)) 0) 1) * colorFactor

/-- Configuration and map metadata feeding `readMap`: `lowestRes`
(`map.getResolution()`), the metric z-bounds, and the member parameters of
`OctomapServer`.  The marker-array size is fixed to 16 in the source
(`m_occupiedCellsVis.markers.resize(16)`, line 111); we keep it as the
parameter `levelCount` instantiated with 16. -/
structure BuildConfig where
  base : ℚ
  minZ : ℚ
  maxZ : ℚ
  useHeightMap : Bool
  colorFactor : ℚ
  fixedColor : ColorRGBA
  frameId : String
  levelCount : ℕ
deriving DecidableEq

/-- The color pushed for a voxel with center `p` (lines 139-140). -/
def pointColor (cfg : BuildConfig) (p : Point3) : ColorRGBA :=
  heightMapColor (heightFraction p.z cfg.minZ cfg.maxZ cfg.colorFactor)

/-- The mutable per-level accumulation state of one marker during the voxel
loop: its `points` and `colors` arrays. -/
structure Bucket where
  points : List Point3
  colors : List ColorRGBA
deriving DecidableEq

/-- A freshly resized marker: empty `points` and `colors`. -/
def emptyBucket : Bucket := ⟨[], []⟩

/-- Initial state of the voxel loop: `markers.resize(n)` (line 111). -/
def initBuckets (n : ℕ) : List Bucket := List.replicate n emptyBucket

/-- Build error: the `assert(idx >= 0 && unsigned(idx) < markers.size())`
(line 129) aborts the build when the computed level is out of range. -/
inductive BuildError where
  | outOfRangeLevel (v : Voxel) (idx : ℤ) : BuildError
deriving DecidableEq

/-- Lines 130-144: the mutation applied to the selected marker: push the cube
center onto `points` (line 137) and, when `m_useHeightMap`, push the height
color onto `colors` (lines 138-141). -/
def pushVoxel (cfg : BuildConfig) (b : Bucket) (v : Voxel) : Bucket :=
  if cfg.useHeightMap then
    ⟨b.points ++ [v.center], b.colors ++ [pointColor cfg v.center]⟩
  else
    ⟨b.points ++ [v.center], b.colors⟩

/-- Lines 126-145, one iteration of the voxel loop: compute `idx`, check the
assertion `assert(idx >= 0 && unsigned(idx) < markers.size())`, and mutate
`markers[idx]`. -/
def processVoxel (cfg : BuildConfig) (buckets : List Bucket) (v : Voxel) :
    Except BuildError (List Bucket) :=
  let idx := voxelIdx v.size cfg.base
  if 0 ≤ idx ∧ idx.toNat < buckets.length then
    Except.ok (buckets.set idx.toNat (pushVoxel cfg (buckets.getD idx.toNat emptyBucket) v))
  else
    Except.error (BuildError.outOfRangeLevel v idx)

/-- The whole voxel loop (lines 124-145) over the occupied-cell list,
starting from the freshly resized markers; the failed assertion aborts. -/
def classifyVoxels (cfg : BuildConfig) (voxels : List Voxel) :
    Except BuildError (List Bucket) :=
  voxels.foldlM (processVoxel cfg) (initBuckets cfg.levelCount)

/-- `visualization_msgs::Marker::ADD` / `DELETE` (lines 162, 164). -/
inductive MarkerAction where
  | ADD : MarkerAction
  | DELETE : MarkerAction
deriving DecidableEq

/-- `visualization_msgs::Marker::CUBE_LIST` (line 154). -/
def CUBE_LIST : ℕ := 6

/-- A finalized `visualization_msgs::Marker` as filled by `readMap`
(the time stamp of line 151 is not modelled). -/
structure Marker where
  points : List Point3
  colors : List ColorRGBA
  frameId : String
  ns : String
  id : ℕ
  type : ℕ
  scaleX : ℚ
  scaleY : ℚ
  scaleZ : ℚ
  color : ColorRGBA
  action : MarkerAction
deriving DecidableEq

/-- Lines 147-165, the finalization loop body for marker `i`:
`size = lowestRes * pow(2, i)`, header/ns/id/type/scale/color fields, and
`action = ADD` when `points.size() > 0`, else `DELETE`. -/
def finalizeMarker (cfg : BuildConfig) (i : ℕ) (b : Bucket) : Marker :=
  let size := cfg.base * 2 ^ i
  { points := b.points
    colors := b.colors
    frameId := cfg.frameId
    ns := "map"
    id := i
    type := CUBE_LIST
    scaleX := size
    scaleY := size
    scaleZ := size
    color := cfg.fixedColor
    action := if b.points.length > 0 then MarkerAction.ADD else MarkerAction.DELETE }

/-- Lines 100-168, `OctomapServer::readMap` restricted to its core
computation: classify the occupied voxels into per-level buckets, then
finalize every marker in index order. -/
def readMap (cfg : BuildConfig) (voxels : List Voxel) :
    Except BuildError (List Marker) :=
  (classifyVoxels cfg voxels).map fun bs =>
    bs.mapIdx fun i b => finalizeMarker cfg i b

/-- Modelled from the spec (§4.2 of the specification, the claim wording):
wrap `h` into `[0,1)` by subtracting `floor h`, take sector `i = ⌊h*6⌋` and
fractional part `f = h*6 - i`, invert `f` to `1 - f` when `i` is even, set
`m = 0` and `n = 1 - f`, and return the RGB permutation of `(1, n, m)` fixed
by the sector table, with alpha 1; sectors outside `{0..6}` give the fallback
`(1, 1/2, 1/2, 1)`.  Used only as the specification side of the refinement
claim about `heightMapColor`. -/
def colorForHeightSpec (h : ℚ) : ColorRGBA :=
  let hw := h - (⌊h⌋ : ℚ)
  let i : ℤ := ⌊hw * 6⌋
  let f := hw * 6 - (i : ℚ)
  let fi := if i % 2 = 0 then 1 - f else f
  let m : ℚ := 0
  let n : ℚ := 1 - fi
  if i = 0 ∨ i = 6 then ⟨1, n, m, 1⟩
  else if i = 1 then ⟨n, 1, m, 1⟩
  else if i = 2 then ⟨m, 1, n, 1⟩
  else if i = 3 then ⟨m, n, 1, 1⟩
  else if i = 4 then ⟨n, m, 1, 1⟩
  else if i = 5 then ⟨1, m, n, 1⟩
  else ⟨1, 1/2, 1/2, 1⟩

/-- A concrete configuration used to instantiate theorems on concrete inputs:
the default parameters of the source (`m_useHeightMap = true`,
`m_colorFactor = 0.8`, `m_color = (0,0,1,1)`, `m_frameId = "/map"`, 16
levels) with base resolution 1 and z-bounds `[0, 10]`. -/
def cfgA : BuildConfig := ⟨1, 0, 10, true, 4/5, ⟨0, 0, 1, 1⟩, "/map", 16⟩

/-- Like `cfgA` but with a single level, for small concrete runs. -/
def cfgB : BuildConfig := ⟨1, 0, 10, true, 4/5, ⟨0, 0, 1, 1⟩, "/map", 1⟩

/-! ## Helper lemmas -/

lemma two_zpow_pos (n : ℤ) : (0 : ℚ) < 2 ^ n :=
  zpow_pos (by norm_num) n

/-- The branch test of `log2HalfFloor` sits between the two fundamental
bounds of `Int.log`: `2 ^ (2 * log2HalfFloor q - 1) ≤ q ^ 2 < 2 ^ (2 *
log2HalfFloor q + 1)`, i.e. `log2HalfFloor q` is the integer `n` with
`2 ^ (n - 1/2) ≤ q < 2 ^ (n + 1/2)` — the nearest integer to `log2 q`. -/
lemma log2HalfFloor_spec {q : ℚ} (hq : 0 < q) :
    (2 : ℚ) ^ (2 * log2HalfFloor q - 1) ≤ q ^ 2 ∧
      q ^ 2 < (2 : ℚ) ^ (2 * log2HalfFloor q + 1) := by
  have h1 : ((2 : ℕ) : ℚ) ^ Int.log 2 q ≤ q := Int.zpow_log_le_self one_lt_two hq
  have h2 : q < ((2 : ℕ) : ℚ) ^ (Int.log 2 q + 1) := Int.lt_zpow_succ_log_self one_lt_two q
  have hcast : ((2 : ℕ) : ℚ) = (2 : ℚ) := by norm_num
  rw [hcast] at h1 h2
  set k := Int.log 2 q with hk
  have hpow : ∀ m : ℤ, ((2 : ℚ) ^ m) ^ (2 : ℕ) = (2 : ℚ) ^ (2 * m) := by
    intro m
    rw [← zpow_natCast ((2 : ℚ) ^ m) 2, ← zpow_mul]
    congr 1
    push_cast
    ring
  have hsq1 : (2 : ℚ) ^ (2 * k) ≤ q ^ 2 := by
    have := pow_le_pow_left₀ (le_of_lt (two_zpow_pos k)) h1 2
    rwa [hpow k] at this
  have hsq2 : q ^ 2 < (2 : ℚ) ^ (2 * k + 2) := by
    have := pow_lt_pow_left₀ h2 (le_of_lt hq) (two_ne_zero)
    rwa [hpow (k + 1), show 2 * (k + 1) = 2 * k + 2 by ring] at this
  have key : log2HalfFloor q = if (2 : ℚ) ^ (2 * k + 1) ≤ q ^ 2 then k + 1 else k := by
    simp only [log2HalfFloor]
  rw [key]
  split_ifs with hcond
  · constructor
    · rwa [show 2 * (k + 1) - 1 = 2 * k + 1 by ring]
    · calc q ^ 2 < (2 : ℚ) ^ (2 * k + 2) := hsq2
        _ ≤ (2 : ℚ) ^ (2 * (k + 1) + 1) :=
          (zpow_le_zpow_iff_right₀ one_lt_two).2 (by omega)
  · constructor
    · calc (2 : ℚ) ^ (2 * k - 1) ≤ (2 : ℚ) ^ (2 * k) :=
          (zpow_le_zpow_iff_right₀ one_lt_two).2 (by omega)
        _ ≤ q ^ 2 := hsq1
    · exact lt_of_not_ge hcond

/-- Uniqueness half of the characterization: any integer `n` with
`2 ^ (2n - 1) ≤ q ^ 2 < 2 ^ (2n + 1)` equals `log2HalfFloor q`. -/
lemma log2HalfFloor_unique {q : ℚ} {n : ℤ} (hq : 0 < q)
    (h1 : (2 : ℚ) ^ (2 * n - 1) ≤ q ^ 2) (h2 : q ^ 2 < (2 : ℚ) ^ (2 * n + 1)) :
    log2HalfFloor q = n := by
  obtain ⟨s1, s2⟩ := log2HalfFloor_spec hq
  by_contra hne
  rcases lt_or_gt_of_ne hne with hlt | hgt
  · have : (2 : ℚ) ^ (2 * n - 1) < (2 : ℚ) ^ (2 * n - 1) :=
      lt_of_le_of_lt h1 (lt_of_lt_of_le s2
        ((zpow_le_zpow_iff_right₀ one_lt_two).2 (by omega)))
    exact absurd this (lt_irrefl _)
  · have : (2 : ℚ) ^ (2 * log2HalfFloor q - 1) < (2 : ℚ) ^ (2 * log2HalfFloor q - 1) :=
      lt_of_le_of_lt s1 (lt_of_lt_of_le h2
        ((zpow_le_zpow_iff_right₀ one_lt_two).2 (by omega)))
    exact absurd this (lt_irrefl _)

/-- The level of a voxel whose size is `base * 2 ^ k` is exactly `k`. -/
lemma voxelIdx_pow2 (base : ℚ) (k : ℕ) (hb : 0 < base) :
    voxelIdx (base * 2 ^ k) base = (k : ℤ) := by
  have hratio : base * 2 ^ k / base = (2 : ℚ) ^ (k : ℤ) := by
    rw [mul_div_cancel_left₀ _ (ne_of_gt hb), zpow_natCast]
  have hsq : ((2 : ℚ) ^ (k : ℤ)) ^ (2 : ℕ) = (2 : ℚ) ^ (2 * (k : ℤ)) := by
    rw [← zpow_natCast ((2 : ℚ) ^ (k : ℤ)) 2, ← zpow_mul]
    congr 1
    push_cast
    ring
  have hfl : log2HalfFloor ((2 : ℚ) ^ (k : ℤ)) = (k : ℤ) := by
    apply log2HalfFloor_unique (two_zpow_pos _)
    · rw [hsq]
      exact (zpow_le_zpow_iff_right₀ one_lt_two).2 (by omega)
    · rw [hsq]
      exact (zpow_lt_zpow_iff_right₀ one_lt_two).2 (by omega)
  simp only [voxelIdx]
  rw [hratio, hfl]
  rw [if_neg (by omega)]

/-- For rational `q > 0` the value `log2 q + 1/2` is never an integer (else
`√2` would be rational), so the C++ truncation toward zero at line 128 has an
unambiguous description in terms of floor and ceiling. -/
lemma logb_add_half_ne_int (q : ℚ) (hq : 0 < q) (m : ℤ) :
    Real.logb 2 (q : ℝ) + 1/2 ≠ (m : ℝ) := by
  intro heq
  have hq0 : (0 : ℝ) < (q : ℝ) := by exact_mod_cast hq
  have hq0' : (q : ℝ) ≠ 0 := ne_of_gt hq0
  have hlogb : Real.logb 2 (q : ℝ) = (m : ℝ) - 1/2 := by linarith
  have hqval : (q : ℝ) = (2 : ℝ) ^ ((m : ℝ) - 1/2) := by
    rw [← hlogb, Real.rpow_logb (by norm_num) (by norm_num) hq0]
  have hmul : (q : ℝ) * (2 : ℝ) ^ ((1 : ℝ)/2) = (2 : ℝ) ^ (m : ℝ) := by
    rw [hqval, ← Real.rpow_add (by norm_num)]
    norm_num
  have h2m : (2 : ℝ) ^ (m : ℝ) = (((2 : ℚ) ^ m : ℚ) : ℝ) := by
    rw [Real.rpow_intCast]
    push_cast
    ring
  have hs : Real.sqrt 2 = (((2 : ℚ) ^ m / q : ℚ) : ℝ) := by
    rw [Real.sqrt_eq_rpow]
    push_cast
    rw [eq_div_iff hq0']
    rw [mul_comm, hmul, h2m]
    push_cast
    ring
  exact irrational_sqrt_two ⟨(2 : ℚ) ^ m / q, hs.symm⟩

/-- For rational `q > 0`, `log2HalfFloor q` is the floor of the real value
`log2 q + 1/2`: the embedding computes exactly the rounding of line 128. -/
lemma log2HalfFloor_eq_floor_logb {q : ℚ} (hq : 0 < q) :
    log2HalfFloor q = ⌊Real.logb 2 (q : ℝ) + 1/2⌋ := by
  obtain ⟨s1, s2⟩ := log2HalfFloor_spec hq
  set n := log2HalfFloor q with hn
  have hqR : (0 : ℝ) < (q : ℝ) := by exact_mod_cast hq
  have c1 : (2 : ℝ) ^ (2 * n - 1) ≤ (q : ℝ) ^ 2 := by
    have h2 : (((2 : ℚ) ^ (2 * n - 1) : ℚ) : ℝ) ≤ ((q ^ 2 : ℚ) : ℝ) := Rat.cast_le.2 s1
    push_cast at h2
    exact h2
  have c2 : (q : ℝ) ^ 2 < (2 : ℝ) ^ (2 * n + 1) := by
    have h2 : ((q ^ 2 : ℚ) : ℝ) < (((2 : ℚ) ^ (2 * n + 1) : ℚ) : ℝ) := Rat.cast_lt.2 s2
    push_cast at h2
    exact h2
  have l1 : ((2 * n - 1 : ℤ) : ℝ) ≤ Real.logb 2 ((q : ℝ) ^ 2) := by
    rw [Real.le_logb_iff_rpow_le one_lt_two (by positivity)]
    rw [Real.rpow_intCast]
    exact c1
  have l2 : Real.logb 2 ((q : ℝ) ^ 2) < ((2 * n + 1 : ℤ) : ℝ) := by
    rw [Real.logb_lt_iff_lt_rpow one_lt_two (by positivity)]
    rw [Real.rpow_intCast]
    exact c2
  rw [Real.logb_pow] at l1 l2
  symm
  rw [Int.floor_eq_iff]
  constructor
  · push_cast at l1 ⊢
    linarith
  · push_cast at l2 ⊢
    linarith

/-- Full description of the C++ `int(log2(size / res) + 0.5)` of line 128:
`voxelIdx` is the truncation toward zero of the real `log2(size/res) + 1/2`
(the floor when nonnegative, the ceiling when negative). -/
lemma voxelIdx_eq_cpp_trunc (size res : ℚ) (h : 0 < size / res) :
    voxelIdx size res =
      if 0 ≤ ⌊Real.logb 2 ((size / res : ℚ) : ℝ) + 1/2⌋ then
        ⌊Real.logb 2 ((size / res : ℚ) : ℝ) + 1/2⌋
      else ⌈Real.logb 2 ((size / res : ℚ) : ℝ) + 1/2⌉ := by
  have hfl := log2HalfFloor_eq_floor_logb h
  simp only [voxelIdx]
  rw [hfl]
  set x := Real.logb 2 ((size / res : ℚ) : ℝ) + 1/2 with hx
  by_cases h0 : ⌊x⌋ < 0
  · rw [if_pos h0, if_neg (by omega)]
    have hne : x ≠ (⌊x⌋ : ℝ) := by
      have := logb_add_half_ne_int (size / res) h ⌊x⌋
      rw [← hx] at this
      exact this
    symm
    rw [Int.ceil_eq_iff]
    constructor
    · push_cast
      have hle := Int.floor_le x
      have : (⌊x⌋ : ℝ) < x := lt_of_le_of_ne hle (Ne.symm hne)
      linarith
    · push_cast
      have := Int.lt_floor_add_one x
      linarith
  · rw [if_neg h0, if_pos (by omega)]

lemma exceptOkBind {ε α β : Type} (a : α) (f : α → Except ε β) :
    (Except.ok a >>= f) = f a := rfl

lemma exceptErrorBind {ε α β : Type} (e : ε) (f : α → Except ε β) :
    ((Except.error e : Except ε α) >>= f) = Except.error e := rfl

/-- `processVoxel` keeps the number of buckets: it only mutates one entry. -/
lemma processVoxel_ok_length (cfg : BuildConfig) (bs bs' : List Bucket) (v : Voxel)
    (h : processVoxel cfg bs v = Except.ok bs') : bs'.length = bs.length := by
  simp only [processVoxel] at h
  split_ifs at h with hc
  rw [← Except.ok.inj h, List.length_set]

/-- The whole voxel loop keeps the number of buckets. -/
lemma foldlM_processVoxel_length (cfg : BuildConfig) :
    ∀ (l : List Voxel) (bs st : List Bucket),
      l.foldlM (processVoxel cfg) bs = Except.ok st → st.length = bs.length := by
  intro l
  induction l with
  | nil =>
    intro bs st h
    rw [List.foldlM_nil] at h
    injection h with h
    rw [h]
  | cons v tl ih =>
    intro bs st h
    rw [List.foldlM_cons] at h
    cases hv : processVoxel cfg bs v with
    | ok b1 =>
      rw [hv, exceptOkBind] at h
      rw [ih b1 st h, processVoxel_ok_length cfg bs b1 v hv]
    | error e =>
      rw [hv, exceptErrorBind] at h
      exact absurd h (fun hh => Except.noConfusion hh)

/-- When the computed index is the natural number `k` and in range, one loop
iteration succeeds and replaces exactly bucket `k` by its pushed version. -/
lemma processVoxel_eval_ok (cfg : BuildConfig) (bs : List Bucket) (v : Voxel) (k : ℕ)
    (hidx : voxelIdx v.size cfg.base = (k : ℤ)) (hk : k < bs.length) :
    processVoxel cfg bs v =
      Except.ok (bs.set k (pushVoxel cfg (bs.getD k emptyBucket) v)) := by
  simp only [processVoxel, hidx]
  rw [if_pos ⟨Int.natCast_nonneg k, by simpa using hk⟩]
  simp

/-- Pushing one voxel preserves the parallel-array shape of a bucket. -/
lemma pushVoxel_parallel (cfg : BuildConfig) (hhm : cfg.useHeightMap = true)
    (b : Bucket) (v : Voxel) (hb : b.colors = b.points.map (pointColor cfg)) :
    (pushVoxel cfg b v).colors = (pushVoxel cfg b v).points.map (pointColor cfg) := by
  simp [pushVoxel, hhm, hb]

/-- One loop iteration preserves the parallel-array invariant: in every
bucket, `colors` is the image of `points` under the per-point color. -/
lemma processVoxel_parallel (cfg : BuildConfig) (hhm : cfg.useHeightMap = true)
    (bs bs' : List Bucket) (v : Voxel)
    (hinv : ∀ b ∈ bs, b.colors = b.points.map (pointColor cfg))
    (h : processVoxel cfg bs v = Except.ok bs') :
    ∀ b ∈ bs', b.colors = b.points.map (pointColor cfg) := by
  simp only [processVoxel] at h
  split_ifs at h with hc
  · intro b hb
    rw [← Except.ok.inj h] at hb
    rcases List.mem_or_eq_of_mem_set hb with hmem | rfl
    · exact hinv b hmem
    · have hmem0 : bs.getD (voxelIdx v.size cfg.base).toNat emptyBucket ∈ bs := by
        rw [List.getD_eq_getElem bs emptyBucket hc.2]
        exact List.getElem_mem hc.2
      exact pushVoxel_parallel cfg hhm _ v (hinv _ hmem0)

/-- The voxel loop preserves the parallel-array invariant. -/
lemma foldlM_parallel (cfg : BuildConfig) (hhm : cfg.useHeightMap = true) :
    ∀ (l : List Voxel) (bs st : List Bucket),
      (∀ b ∈ bs, b.colors = b.points.map (pointColor cfg)) →
      l.foldlM (processVoxel cfg) bs = Except.ok st →
      ∀ b ∈ st, b.colors = b.points.map (pointColor cfg) := by
  intro l
  induction l with
  | nil =>
    intro bs st hinv h
    rw [List.foldlM_nil] at h
    injection h with h
    rw [← h]
    exact hinv
  | cons v tl ih =>
    intro bs st hinv h
    rw [List.foldlM_cons] at h
    cases hv : processVoxel cfg bs v with
    | ok b1 =>
      rw [hv, exceptOkBind] at h
      exact ih b1 st (processVoxel_parallel cfg hhm bs b1 v hinv hv) h
    | error e =>
      rw [hv, exceptErrorBind] at h
      exact absurd h (fun hh => Except.noConfusion hh)

/-- All components of the switch output lie in `[0, 1]` (alpha is 1) as soon
as `v`, `m`, `n` do. -/
lemma hmSwitch_bounds (i : ℤ) (v m n : ℚ)
    (hv0 : 0 ≤ v) (hv1 : v ≤ 1) (hm0 : 0 ≤ m) (hm1 : m ≤ 1)
    (hn0 : 0 ≤ n) (hn1 : n ≤ 1) :
    0 ≤ (hmSwitch i v m n).r ∧ (hmSwitch i v m n).r ≤ 1 ∧
    0 ≤ (hmSwitch i v m n).g ∧ (hmSwitch i v m n).g ≤ 1 ∧
    0 ≤ (hmSwitch i v m n).b ∧ (hmSwitch i v m n).b ≤ 1 ∧
    (hmSwitch i v m n).a = 1 := by
  simp only [hmSwitch]
  split_ifs <;> refine ⟨?_, ?_, ?_, ?_, ?_, ?_, rfl⟩ <;> first | assumption | norm_num

/-- Sectors outside `{0..6}` fall through to the `default` branch. -/
lemma hmSwitch_out_of_range (i : ℤ) (v m n : ℚ) (h : i < 0 ∨ 6 < i) :
    hmSwitch i v m n = ⟨1, 1/2, 1/2, 1⟩ := by
  simp only [hmSwitch]
  split_ifs <;> first | rfl | (exfalso; omega)

/-- Concrete color: wrapped fraction `4/5` lands in sector 4 with inverted
sector fraction `1/5`, giving `(4/5, 0, 1, 1)`. -/
lemma heightMapColor_val45 : heightMapColor (4/5) = ⟨4/5, 0, 1, 1⟩ := by
  have h1 : (⌊(4/5 : ℚ)⌋ : ℤ) = 0 := by norm_num
  have h2 : (⌊((4/5 : ℚ) - ((0 : ℤ) : ℚ)) * 6⌋ : ℤ) = 4 := by norm_num
  simp only [heightMapColor, hmCore, h1, h2]
  norm_num [hmSwitch]

/-- Concrete color: fraction `0` lands in sector 0 with inverted sector
fraction `1`, giving pure red `(1, 0, 0, 1)`. -/
lemma heightMapColor_val0 : heightMapColor 0 = ⟨1, 0, 0, 1⟩ := by
  have h1 : (⌊(0 : ℚ)⌋ : ℤ) = 0 := by norm_num
  have h2 : (⌊((0 : ℚ) - ((0 : ℤ) : ℚ)) * 6⌋ : ℤ) = 0 := by norm_num
  simp only [heightMapColor, hmCore, h1, h2]
  norm_num [hmSwitch]

/-- Destructor for a successful `readMap`: the classification succeeded with
`levelCount` buckets and the result is their index-wise finalization. -/
lemma readMap_ok_elim {cfg : BuildConfig} {voxels : List Voxel} {ms : List Marker}
    (h : readMap cfg voxels = Except.ok ms) :
    ∃ bs, classifyVoxels cfg voxels = Except.ok bs ∧
      bs.length = cfg.levelCount ∧
      ms = bs.mapIdx fun i b => finalizeMarker cfg i b := by
  unfold readMap at h
  cases hc : classifyVoxels cfg voxels with
  | ok bs =>
    rw [hc] at h
    refine ⟨bs, rfl, ?_, ?_⟩
    · have := foldlM_processVoxel_length cfg voxels (initBuckets cfg.levelCount) bs hc
      simpa [initBuckets] using this
    · simp only [Except.map] at h
      exact (Except.ok.inj h).symm
  | error e =>
    rw [hc] at h
    exact absurd h (fun hh => Except.noConfusion hh)

/-! ## Claim theorems -/

/-- C1: a voxel whose size equals `baseResolution * 2 ^ k` with `k <
levelCount` is classified to level index `k` (the nearest integer to
`log2(size / baseResolution)`), its center is appended to bucket `k`, and
every other bucket is left unchanged. -/
theorem classify_pow2_bucket (cfg : BuildConfig) (bs : List Bucket) (v : Voxel) (k : ℕ)
    (hb : 0 < cfg.base) (hlen : bs.length = cfg.levelCount) (hk : k < cfg.levelCount)
    (hs : v.size = cfg.base * 2 ^ k) :
    voxelIdx v.size cfg.base = (k : ℤ) ∧
    processVoxel cfg bs v =
      Except.ok (bs.set k (pushVoxel cfg (bs.getD k emptyBucket) v)) ∧
    ∀ j, j ≠ k →
      (bs.set k (pushVoxel cfg (bs.getD k emptyBucket) v)).getD j emptyBucket =
        bs.getD j emptyBucket := by
  have hidx : voxelIdx v.size cfg.base = (k : ℤ) := by
    rw [hs]
    exact voxelIdx_pow2 _ _ hb
  refine ⟨hidx, processVoxel_eval_ok cfg bs v k hidx (by omega), ?_⟩
  intro j hj
  simp only [List.getD_eq_getElem?_getD]
  rw [List.getElem?_set_ne (Ne.symm hj)]

/-- C1 witness: with base resolution 1, a voxel of size `8 = 2 ^ 3` goes to
bucket 3 and bucket 5 is untouched. -/
theorem classify_pow2_bucket_witness :
    voxelIdx (8 : ℚ) 1 = (3 : ℤ) ∧
    processVoxel cfgA (initBuckets 16) ⟨⟨1, 2, 3⟩, 8⟩ =
      Except.ok ((initBuckets 16).set 3
        (pushVoxel cfgA ((initBuckets 16).getD 3 emptyBucket) ⟨⟨1, 2, 3⟩, 8⟩)) ∧
    ((initBuckets 16).set 3
        (pushVoxel cfgA ((initBuckets 16).getD 3 emptyBucket) ⟨⟨1, 2, 3⟩, 8⟩)).getD 5
        emptyBucket =
      (initBuckets 16).getD 5 emptyBucket := by
  have H := classify_pow2_bucket cfgA (initBuckets 16) ⟨⟨1, 2, 3⟩, 8⟩ 3
    (by norm_num [cfgA]) (by simp [initBuckets, cfgA]) (by norm_num [cfgA])
    (by show (8 : ℚ) = 1 * 2 ^ 3; norm_num)
  exact ⟨H.1, H.2.1, H.2.2 5 (by norm_num)⟩

/-- C2: `heightMapColor` computes exactly the spec-described HSV walk (wrap
by subtracting the floor, sector `⌊h*6⌋`, sector fraction inverted on even
sectors, `m = 0`, `n = 1 - f`, fixed permutation table, alpha 1), and any
sector outside `{0..6}` gives the fallback color `(1, 1/2, 1/2, 1)`. -/
theorem heightMapColor_matches_spec :
    (∀ h : ℚ, heightMapColor h = colorForHeightSpec h) ∧
    (∀ (i : ℤ) (v m n : ℚ), i < 0 ∨ 6 < i → hmSwitch i v m n = ⟨1, 1/2, 1/2, 1⟩) := by
  constructor
  · intro h
    simp only [heightMapColor, hmCore, colorForHeightSpec, hmSwitch]
    split_ifs <;>
      first
        | tauto
        | (simp only [ColorRGBA.mk.injEq]
           refine ⟨by ring_nf, by ring_nf, by ring_nf, by ring_nf⟩)
  · intro i v m n h
    exact hmSwitch_out_of_range i v m n h

/-- C2 witness: the refinement at `h = 1/3` and the fallback at sector 7. -/
theorem heightMapColor_matches_spec_witness :
    heightMapColor (1/3) = colorForHeightSpec (1/3) ∧
    hmSwitch 7 1 0 0 = ⟨1, 1/2, 1/2, 1⟩ :=
  ⟨heightMapColor_matches_spec.1 (1/3),
   heightMapColor_matches_spec.2 7 1 0 0 (by norm_num)⟩

/-- C9: the height color function is periodic with period 1, since the wrap
`h -= floor(h)` is. -/
theorem heightMapColor_periodic (h : ℚ) : heightMapColor h = heightMapColor (h + 1) := by
  simp only [heightMapColor]
  rw [Int.floor_add_one]
  congr 1
  push_cast
  ring

/-- C10: every color returned by `heightMapColor` has `r`, `g`, `b` within
`[0, 1]` and alpha exactly 1. -/
theorem heightMapColor_components_unit (h : ℚ) :
    0 ≤ (heightMapColor h).r ∧ (heightMapColor h).r ≤ 1 ∧
    0 ≤ (heightMapColor h).g ∧ (heightMapColor h).g ≤ 1 ∧
    0 ≤ (heightMapColor h).b ∧ (heightMapColor h).b ≤ 1 ∧
    (heightMapColor h).a = 1 := by
  have hf0 : (0 : ℚ) ≤ (h - (⌊h⌋ : ℚ)) * 6 - ((⌊(h - (⌊h⌋ : ℚ)) * 6⌋ : ℤ) : ℚ) :=
    sub_nonneg.2 (Int.floor_le _)
  have hf1 : (h - (⌊h⌋ : ℚ)) * 6 - ((⌊(h - (⌊h⌋ : ℚ)) * 6⌋ : ℤ) : ℚ) < 1 := by
    have := Int.lt_floor_add_one ((h - (⌊h⌋ : ℚ)) * 6)
    linarith
  simp only [heightMapColor, hmCore]
  refine hmSwitch_bounds _ _ _ _ (by norm_num) (by norm_num) (by norm_num) (by norm_num)
    ?_ ?_ <;> split_ifs <;> linarith

/-- C3: every successful build emits exactly `levelCount` marker records, in
ascending level order `0 .. levelCount - 1` (their `id` fields), empty levels
included, and level `i` has cube size `baseResolution * 2 ^ i` on all three
scale axes. -/
theorem build_emits_levelCount_buckets (cfg : BuildConfig) (voxels : List Voxel)
    (ms : List Marker) (h : readMap cfg voxels = Except.ok ms) :
    ms.length = cfg.levelCount ∧
    ms.map Marker.id = List.range cfg.levelCount ∧
    ms.map Marker.scaleX = (List.range cfg.levelCount).map (fun i => cfg.base * 2 ^ i) ∧
    ms.map Marker.scaleY = (List.range cfg.levelCount).map (fun i => cfg.base * 2 ^ i) ∧
    ms.map Marker.scaleZ = (List.range cfg.levelCount).map (fun i => cfg.base * 2 ^ i) := by
  obtain ⟨bs, hc, hlen, rfl⟩ := readMap_ok_elim h
  have hlen2 : (bs.mapIdx fun i b => finalizeMarker cfg i b).length = cfg.levelCount := by
    rw [List.length_mapIdx, hlen]
  refine ⟨hlen2, ?_, ?_, ?_, ?_⟩ <;>
    · apply List.ext_getElem (by simp [hlen2])
      intro i h1 h2
      simp only [List.getElem_map, List.getElem_mapIdx, List.getElem_range, finalizeMarker]

/-- C3 witness: the empty map over one level gives exactly one marker with
`id = 0` and scale `base * 2 ^ 0`. -/
theorem build_emits_levelCount_buckets_witness :
    ([finalizeMarker cfgB 0 emptyBucket].length = 1) ∧
    [finalizeMarker cfgB 0 emptyBucket].map Marker.id = List.range 1 ∧
    [finalizeMarker cfgB 0 emptyBucket].map Marker.scaleX =
      (List.range 1).map (fun i => cfgB.base * 2 ^ i) ∧
    [finalizeMarker cfgB 0 emptyBucket].map Marker.scaleY =
      (List.range 1).map (fun i => cfgB.base * 2 ^ i) ∧
    [finalizeMarker cfgB 0 emptyBucket].map Marker.scaleZ =
      (List.range 1).map (fun i => cfgB.base * 2 ^ i) :=
  build_emits_levelCount_buckets cfgB [] [finalizeMarker cfgB 0 emptyBucket] (by rfl)

/-- C4: a voxel whose computed level index fails the range check makes the
whole build abort with `outOfRangeLevel` naming that voxel and index; no
result list is produced and the remaining voxels are not processed. -/
theorem out_of_range_level_aborts (cfg : BuildConfig) (pre post : List Voxel)
    (v : Voxel) (st : List Bucket)
    (hpre : pre.foldlM (processVoxel cfg) (initBuckets cfg.levelCount) = Except.ok st)
    (hout : ¬ (0 ≤ voxelIdx v.size cfg.base ∧
      (voxelIdx v.size cfg.base).toNat < cfg.levelCount)) :
    readMap cfg (pre ++ v :: post) =
      Except.error (BuildError.outOfRangeLevel v (voxelIdx v.size cfg.base)) := by
  have hst : st.length = cfg.levelCount := by
    rw [foldlM_processVoxel_length cfg pre _ st hpre]
    simp [initBuckets]
  have hstep : processVoxel cfg st v =
      Except.error (BuildError.outOfRangeLevel v (voxelIdx v.size cfg.base)) := by
    simp only [processVoxel]
    rw [if_neg (by rw [hst]; exact hout)]
  have hclassify : classifyVoxels cfg (pre ++ v :: post) =
      Except.error (BuildError.outOfRangeLevel v (voxelIdx v.size cfg.base)) := by
    unfold classifyVoxels
    rw [List.foldlM_append, hpre, exceptOkBind, List.foldlM_cons, hstep, exceptErrorBind]
  unfold readMap
  rw [hclassify]
  rfl

/-- C4 witness: with base resolution 1 and 16 levels, a voxel of size
`65536 = 2 ^ 16` computes index 16 and aborts the build immediately. -/
theorem out_of_range_level_aborts_witness :
    readMap cfgA [⟨⟨0, 0, 0⟩, 65536⟩] =
      Except.error (BuildError.outOfRangeLevel ⟨⟨0, 0, 0⟩, 65536⟩
        (voxelIdx (65536 : ℚ) 1)) := by
  have hidx : voxelIdx (65536 : ℚ) 1 = (16 : ℤ) := by
    have h2 : (65536 : ℚ) = 1 * 2 ^ (16 : ℕ) := by norm_num
    nth_rewrite 1 [h2]
    exact voxelIdx_pow2 1 16 (by norm_num)
  have hout : ¬ (0 ≤ voxelIdx (65536 : ℚ) 1 ∧ (voxelIdx (65536 : ℚ) 1).toNat < 16) := by
    rw [hidx]
    simp
  exact out_of_range_level_aborts cfgA [] [] ⟨⟨0, 0, 0⟩, 65536⟩ (initBuckets 16) rfl hout

/-- C5: with height coloring enabled, after any prefix of the voxel loop each
bucket has as many colors as points, and the colors are exactly the images of
the stored centers under the per-point height color (the parallel arrays
describe the same source voxels). -/
theorem points_colors_parallel (cfg : BuildConfig) (hhm : cfg.useHeightMap = true)
    (voxels : List Voxel) (n : ℕ) (st : List Bucket)
    (h : (voxels.take n).foldlM (processVoxel cfg) (initBuckets cfg.levelCount) =
      Except.ok st) :
    ∀ b ∈ st, b.points.length = b.colors.length ∧
      b.colors = b.points.map (pointColor cfg) := by
  have hinv0 : ∀ b ∈ initBuckets cfg.levelCount,
      b.colors = b.points.map (pointColor cfg) := by
    intro b hb
    rw [List.eq_of_mem_replicate hb]
    rfl
  have hinv := foldlM_parallel cfg hhm (voxels.take n) _ st hinv0 h
  intro b hb
  refine ⟨?_, hinv b hb⟩
  rw [hinv b hb, List.length_map]

/-- C5 witness: one voxel at `z = 5` lands in bucket 0 with one point and the
matching single color. -/
theorem points_colors_parallel_witness :
    (⟨[⟨0, 0, 5⟩], [pointColor cfgA ⟨0, 0, 5⟩]⟩ : Bucket).points.length =
      (⟨[⟨0, 0, 5⟩], [pointColor cfgA ⟨0, 0, 5⟩]⟩ : Bucket).colors.length ∧
    (⟨[⟨0, 0, 5⟩], [pointColor cfgA ⟨0, 0, 5⟩]⟩ : Bucket).colors =
      (⟨[⟨0, 0, 5⟩], [pointColor cfgA ⟨0, 0, 5⟩]⟩ : Bucket).points.map (pointColor cfgA) := by
  have hidx : voxelIdx (1 : ℚ) 1 = (0 : ℤ) := by
    have h2 : (1 : ℚ) = 1 * 2 ^ (0 : ℕ) := by norm_num
    nth_rewrite 1 [h2]
    exact voxelIdx_pow2 1 0 (by norm_num)
  have hstep : processVoxel cfgA (initBuckets 16) ⟨⟨0, 0, 5⟩, 1⟩ =
      Except.ok ((initBuckets 16).set 0
        (pushVoxel cfgA ((initBuckets 16).getD 0 emptyBucket) ⟨⟨0, 0, 5⟩, 1⟩)) :=
    processVoxel_eval_ok cfgA _ _ 0 hidx (by simp [initBuckets])
  have hfold : (([⟨⟨0, 0, 5⟩, 1⟩] : List Voxel).take 1).foldlM (processVoxel cfgA)
      (initBuckets cfgA.levelCount) =
      Except.ok ((initBuckets 16).set 0
        (pushVoxel cfgA ((initBuckets 16).getD 0 emptyBucket) ⟨⟨0, 0, 5⟩, 1⟩)) := by
    show ([⟨⟨0, 0, 5⟩, 1⟩] : List Voxel).foldlM (processVoxel cfgA) (initBuckets 16) = _
    rw [List.foldlM_cons, hstep, exceptOkBind, List.foldlM_nil]
    rfl
  have H := points_colors_parallel cfgA rfl [⟨⟨0, 0, 5⟩, 1⟩] 1 _ hfold
  have hmem : (⟨[⟨0, 0, 5⟩], [pointColor cfgA ⟨0, 0, 5⟩]⟩ : Bucket) ∈
      (initBuckets 16).set 0
        (pushVoxel cfgA ((initBuckets 16).getD 0 emptyBucket) ⟨⟨0, 0, 5⟩, 1⟩) := by
    show (⟨[⟨0, 0, 5⟩], [pointColor cfgA ⟨0, 0, 5⟩]⟩ : Bucket) ∈
      (⟨[⟨0, 0, 5⟩], [pointColor cfgA ⟨0, 0, 5⟩]⟩ : Bucket) :: List.replicate 15 emptyBucket
    exact List.mem_cons_self _ _
  exact H _ hmem

/-- C6: with height coloring on and an in-range index, one loop iteration
appends exactly `heightMapColor` of the height fraction
`(1 - clamp((z - zMin)/(zMax - zMin), 0, 1)) * colorFactor` of the voxel;
with bounds `[0, 10]` and factor `0.8`, `z = 0` gives fraction `4/5`,
`z = 10` gives fraction `0`, and the two colors differ. -/
theorem builder_height_fraction (cfg : BuildConfig) (bs : List Bucket) (v : Voxel)
    (hhm : cfg.useHeightMap = true)
    (hin : 0 ≤ voxelIdx v.size cfg.base ∧
      (voxelIdx v.size cfg.base).toNat < bs.length) :
    (processVoxel cfg bs v =
      Except.ok (bs.set (voxelIdx v.size cfg.base).toNat
        ⟨(bs.getD (voxelIdx v.size cfg.base).toNat emptyBucket).points ++ [v.center],
         (bs.getD (voxelIdx v.size cfg.base).toNat emptyBucket).colors ++
           [heightMapColor (heightFraction v.center.z cfg.minZ cfg.maxZ cfg.colorFactor)]⟩)) ∧
    heightFraction 0 0 10 (4/5) = 4/5 ∧
    heightFraction 10 0 10 (4/5) = 0 ∧
    heightMapColor (heightFraction 0 0 10 (4/5)) ≠
      heightMapColor (heightFraction 10 0 10 (4/5)) := by
  have e1 : heightFraction 0 0 10 (4/5) = 4/5 := by norm_num [heightFraction]
  have e2 : heightFraction 10 0 10 (4/5) = 0 := by norm_num [heightFraction]
  refine ⟨?_, e1, e2, ?_⟩
  · simp only [processVoxel]
    rw [if_pos hin]
    simp [pushVoxel, hhm, pointColor]
  · rw [e1, e2, heightMapColor_val45, heightMapColor_val0]
    simp only [ne_eq, ColorRGBA.mk.injEq]
    norm_num

/-- C6 witness: the loop iteration for a size-2 voxel at the origin under
`cfgA`, and the concrete height-fraction scenario values. -/
theorem builder_height_fraction_witness :
    (processVoxel cfgA (initBuckets 16) ⟨⟨0, 0, 0⟩, 2⟩ =
      Except.ok ((initBuckets 16).set (voxelIdx (2 : ℚ) 1).toNat
        ⟨((initBuckets 16).getD (voxelIdx (2 : ℚ) 1).toNat emptyBucket).points ++
            [⟨0, 0, 0⟩],
         ((initBuckets 16).getD (voxelIdx (2 : ℚ) 1).toNat emptyBucket).colors ++
           [heightMapColor (heightFraction 0 0 10 (4/5))]⟩)) ∧
    heightFraction 0 0 10 (4/5) = 4/5 ∧
    heightFraction 10 0 10 (4/5) = 0 ∧
    heightMapColor (heightFraction 0 0 10 (4/5)) ≠
      heightMapColor (heightFraction 10 0 10 (4/5)) := by
  have hidx : voxelIdx (2 : ℚ) 1 = (1 : ℤ) := by
    have h2 : (2 : ℚ) = 1 * 2 ^ (1 : ℕ) := by norm_num
    nth_rewrite 1 [h2]
    exact voxelIdx_pow2 1 1 (by norm_num)
  refine builder_height_fraction cfgA (initBuckets 16) ⟨⟨0, 0, 0⟩, 2⟩ rfl ⟨?_, ?_⟩
  · rw [show voxelIdx ((⟨⟨0, 0, 0⟩, 2⟩ : Voxel)).size cfgA.base = (1 : ℤ) from hidx]
    norm_num
  · rw [show voxelIdx ((⟨⟨0, 0, 0⟩, 2⟩ : Voxel)).size cfgA.base = (1 : ℤ) from hidx]
    simp [initBuckets]

/-- C8: in every successful build, a marker is `ADD` exactly when its level
has at least one point and `DELETE` exactly when it is empty; the build over
zero voxels yields `levelCount` markers, all `DELETE` with no points. -/
theorem populated_iff_nonempty (cfg : BuildConfig) (voxels : List Voxel)
    (ms : List Marker) (h : readMap cfg voxels = Except.ok ms) :
    (∀ m ∈ ms, (m.action = MarkerAction.ADD ↔ m.points ≠ []) ∧
      (m.action = MarkerAction.DELETE ↔ m.points = [])) ∧
    (voxels = [] → ms.length = cfg.levelCount ∧
      ∀ m ∈ ms, m.action = MarkerAction.DELETE ∧ m.points = []) := by
  obtain ⟨bs, hc, hlen, rfl⟩ := readMap_ok_elim h
  constructor
  · intro m hm
    obtain ⟨i, hi, hmi⟩ := List.mem_iff_getElem.1 hm
    rw [List.getElem_mapIdx] at hmi
    subst hmi
    have hi2 : i < bs.length := by simpa using hi
    by_cases hp : (bs[i]).points = []
    · simp [finalizeMarker, hp]
    · have hpos : 0 < (bs[i]).points.length := List.length_pos.2 hp
      simp [finalizeMarker, hp, hpos]
  · intro hv
    subst hv
    have hbs : bs = initBuckets cfg.levelCount := by
      have hnil : classifyVoxels cfg [] = Except.ok (initBuckets cfg.levelCount) := rfl
      rw [hnil] at hc
      exact (Except.ok.inj hc).symm
    subst hbs
    refine ⟨by simp [List.length_mapIdx, initBuckets], ?_⟩
    intro m hm
    obtain ⟨i, hi, hmi⟩ := List.mem_iff_getElem.1 hm
    rw [List.getElem_mapIdx] at hmi
    have hi2 : i < (initBuckets cfg.levelCount).length := by simpa using hi
    have hrep : (initBuckets cfg.levelCount)[i] = emptyBucket :=
      List.getElem_replicate _ _
    rw [hrep] at hmi
    subst hmi
    simp [finalizeMarker, emptyBucket]

/-- C8 witness: the empty build over one level produces a single empty
`DELETE` marker. -/
theorem populated_iff_nonempty_witness :
    ((finalizeMarker cfgB 0 emptyBucket).action = MarkerAction.DELETE ∧
      (finalizeMarker cfgB 0 emptyBucket).points = []) ∧
    [finalizeMarker cfgB 0 emptyBucket].length = 1 := by
  have H := populated_iff_nonempty cfgB [] [finalizeMarker cfgB 0 emptyBucket] (by rfl)
  have H3 := H.2 rfl
  exact ⟨H3.2 _ (List.mem_cons_self _ _), H3.1⟩

end OctomapServer
